import Mathlib

/-!
Verification of the jet-cone / underlying-event geometry core of
`PWGLF/Tasks/Nuspex/antinucleiInJets.cxx`.

The C++ routines operate on `double`; we embed them over the real
numbers, with `Real.sqrt` standing for `std::sqrt` and an explicit
floor-based reduction standing for `TVector2::Phi_0_2pi`.  All
definitions are direct transcriptions of the source functions:
`getPerpendicularAxis`, `getDeltaPhi`, `getCorrectedPt`, and the
underlying-event track loop of `processData`.
-/

/-- Three-component vector, the embedding of ROOT's `TVector3` as used by
`getPerpendicularAxis` (only the x, y, z components are relevant). -/
@[ext]
structure TVector3 where
  x : ℝ
  y : ℝ
  z : ℝ

open Classical

/-- Coefficient `a = px² + py²` of the quadratic solved in the general case
of `getPerpendicularAxis` (line 327 of the source). -/
def aGeneral (p : TVector3) : ℝ := p.x * p.x + p.y * p.y

/-- Coefficient `b = 2·px·pz²` of the quadratic (line 328 of the source). -/
def bGeneral (p : TVector3) : ℝ := 2 * p.x * (p.z * p.z)

/-- Coefficient `c = pz⁴ − py⁴ − px²·py²` of the quadratic (line 329). -/
def cGeneral (p : TVector3) : ℝ :=
  (p.z * p.z) * (p.z * p.z) - (p.y * p.y) * (p.y * p.y) - (p.x * p.x) * (p.y * p.y)

/-- Discriminant `delta = b² − 4ac` computed at line 331 of the source. -/
def deltaGeneral (p : TVector3) : ℝ :=
  bGeneral p * bGeneral p - 4 * aGeneral p * cGeneral p

/-- Embedding of `getPerpendicularAxis(p, u, sign)` (source lines 293-342).
The C++ routine writes its result into the out-parameter `u`; here it is
returned.  The four branches are transcribed in the source's order:
both transverse components zero, `px == 0` ("protection 1"), `py == 0`
("protection 2"), and the general quadratic case, which returns the zero
vector when the discriminant is negative or `a = 0`. -/
noncomputable def getPerpendicularAxis (p : TVector3) (sign : ℝ) : TVector3 :=
  if p.x = 0 ∧ p.y = 0 then
    ⟨0, 0, 0⟩
  else if p.x = 0 ∧ p.y ≠ 0 then
    ⟨sign * Real.sqrt (p.y * p.y - ((p.z * p.z) * (p.z * p.z)) / (p.y * p.y)),
     -(p.z * p.z) / p.y, p.z⟩
  else if p.y = 0 ∧ p.x ≠ 0 then
    ⟨-(p.z * p.z) / p.x,
     sign * Real.sqrt (p.x * p.x - ((p.z * p.z) * (p.z * p.z)) / (p.x * p.x)), p.z⟩
  else if deltaGeneral p < 0 ∨ aGeneral p = 0 then
    ⟨0, 0, 0⟩
  else
    ⟨(-bGeneral p + sign * Real.sqrt (deltaGeneral p)) / (2 * aGeneral p),
     (-(p.z * p.z) - p.x * ((-bGeneral p + sign * Real.sqrt (deltaGeneral p)) / (2 * aGeneral p))) / p.y,
     p.z⟩

/-- In the general case (both transverse components nonzero, discriminant
nonnegative) the solver takes the quadratic branch. -/
theorem getPerpendicularAxis_general_eq (p : TVector3) (s : ℝ) (hx : p.x ≠ 0) (hy : p.y ≠ 0)
    (hd : 0 ≤ deltaGeneral p) :
    getPerpendicularAxis p s =
      ⟨(-bGeneral p + s * Real.sqrt (deltaGeneral p)) / (2 * aGeneral p),
       (-(p.z * p.z) - p.x * ((-bGeneral p + s * Real.sqrt (deltaGeneral p)) / (2 * aGeneral p))) / p.y,
       p.z⟩ := by
  have ha : aGeneral p ≠ 0 := by
    have hx2 : 0 < p.x * p.x := mul_self_pos.mpr hx
    have hy2 : 0 ≤ p.y * p.y := mul_self_nonneg p.y
    unfold aGeneral
    nlinarith
  unfold getPerpendicularAxis
  rw [if_neg (by tauto), if_neg (by tauto), if_neg (by tauto),
    if_neg (by push_neg; exact ⟨hd, ha⟩)]

/-- For any sign, the general-case output satisfies the transverse
perpendicularity constraint and carries the jet's z-component. -/
theorem perpAxis_dot_eq (p : TVector3) (s : ℝ) (hx : p.x ≠ 0) (hy : p.y ≠ 0)
    (hd : 0 ≤ deltaGeneral p) :
    (getPerpendicularAxis p s).x * p.x + (getPerpendicularAxis p s).y * p.y
        = -(p.z * p.z) ∧
      (getPerpendicularAxis p s).z = p.z := by
  rw [getPerpendicularAxis_general_eq p s hx hy hd]
  refine ⟨?_, rfl⟩
  field_simp
  ring

/-- When both transverse components vanish the solver returns the zero
vector (first branch, source lines 305-308). -/
theorem getPerpendicularAxis_both_zero (p : TVector3) (s : ℝ) (hx : p.x = 0) (hy : p.y = 0) :
    getPerpendicularAxis p s = ⟨0, 0, 0⟩ := by
  unfold getPerpendicularAxis
  rw [if_pos ⟨hx, hy⟩]

/-- Evaluation of the `px = 0` branch ("protection 1", source lines 311-316). -/
theorem getPerpendicularAxis_px_zero (p : TVector3) (s : ℝ) (hx : p.x = 0) (hy : p.y ≠ 0) :
    getPerpendicularAxis p s =
      ⟨s * Real.sqrt (p.y * p.y - ((p.z * p.z) * (p.z * p.z)) / (p.y * p.y)),
       -(p.z * p.z) / p.y, p.z⟩ := by
  unfold getPerpendicularAxis
  rw [if_neg (by tauto), if_pos ⟨hx, hy⟩]

/-- Evaluation of the `py = 0` branch ("protection 2", source lines 319-324). -/
theorem getPerpendicularAxis_py_zero (p : TVector3) (s : ℝ) (hy : p.y = 0) (hx : p.x ≠ 0) :
    getPerpendicularAxis p s =
      ⟨-(p.z * p.z) / p.x,
       s * Real.sqrt (p.x * p.x - ((p.z * p.z) * (p.z * p.z)) / (p.x * p.x)), p.z⟩ := by
  unfold getPerpendicularAxis
  rw [if_neg (by tauto), if_neg (by tauto), if_pos ⟨hy, hx⟩]

/-- Evaluation of the invalid-geometry branch of the general case
(source lines 333-337). -/
theorem getPerpendicularAxis_invalid (p : TVector3) (s : ℝ) (hx : p.x ≠ 0) (hy : p.y ≠ 0)
    (hd : deltaGeneral p < 0 ∨ aGeneral p = 0) :
    getPerpendicularAxis p s = ⟨0, 0, 0⟩ := by
  unfold getPerpendicularAxis
  rw [if_neg (by tauto), if_neg (by tauto), if_neg (by tauto), if_pos hd]

/-- C1: for every input vector `p` with `px ≠ 0`, `py ≠ 0` and a valid
general-case branch (discriminant `Δ ≥ 0`; `a = px²+py² ≠ 0` is automatic),
the outputs of `getPerpendicularAxis` with `sign = +1` and `sign = −1` both
satisfy `ux·px + uy·py = −pz²` and both have `uz = pz`. -/
theorem perpAxis_sign_pair (p : TVector3) (hx : p.x ≠ 0) (hy : p.y ≠ 0)
    (hd : 0 ≤ deltaGeneral p) :
    ((getPerpendicularAxis p 1).x * p.x + (getPerpendicularAxis p 1).y * p.y
        = -(p.z * p.z) ∧
      (getPerpendicularAxis p 1).z = p.z) ∧
    ((getPerpendicularAxis p (-1)).x * p.x + (getPerpendicularAxis p (-1)).y * p.y
        = -(p.z * p.z) ∧
      (getPerpendicularAxis p (-1)).z = p.z) :=
  ⟨perpAxis_dot_eq p 1 hx hy hd, perpAxis_dot_eq p (-1) hx hy hd⟩

/-- Witness for C1 at the concrete input `p = (3, 4, 0)`, whose discriminant
is `40000 ≥ 0`. -/
theorem perpAxis_sign_pair_witness :
    (((getPerpendicularAxis ⟨3, 4, 0⟩ 1).x * (3 : ℝ)
          + (getPerpendicularAxis ⟨3, 4, 0⟩ 1).y * (4 : ℝ) = -((0 : ℝ) * 0) ∧
        (getPerpendicularAxis ⟨3, 4, 0⟩ 1).z = (0 : ℝ)) ∧
      ((getPerpendicularAxis ⟨3, 4, 0⟩ (-1)).x * (3 : ℝ)
          + (getPerpendicularAxis ⟨3, 4, 0⟩ (-1)).y * (4 : ℝ) = -((0 : ℝ) * 0) ∧
        (getPerpendicularAxis ⟨3, 4, 0⟩ (-1)).z = (0 : ℝ))) :=
  perpAxis_sign_pair ⟨3, 4, 0⟩ (by norm_num) (by norm_num)
    (by norm_num [deltaGeneral, aGeneral, bGeneral, cGeneral])

/-- C2 counterexample: the claim asserts that degenerate inputs with one or
both transverse components zero yield the zero vector, but for
`p = (0, 2, 0)` (one transverse component zero) the "protection 1" branch
returns `(2, 0, 0)`, which is not the zero vector. -/
theorem perpAxis_degenerate_not_zero :
    getPerpendicularAxis ⟨0, 2, 0⟩ 1 ≠ ⟨0, 0, 0⟩ := by
  have hval : getPerpendicularAxis (⟨0, 2, 0⟩ : TVector3) 1 = ⟨2, 0, 0⟩ := by
    rw [getPerpendicularAxis_px_zero ⟨0, 2, 0⟩ 1 rfl (by norm_num)]
    have harg : ((⟨0, 2, 0⟩ : TVector3).y * (⟨0, 2, 0⟩ : TVector3).y
        - (((⟨0, 2, 0⟩ : TVector3).z * (⟨0, 2, 0⟩ : TVector3).z)
            * ((⟨0, 2, 0⟩ : TVector3).z * (⟨0, 2, 0⟩ : TVector3).z))
          / ((⟨0, 2, 0⟩ : TVector3).y * (⟨0, 2, 0⟩ : TVector3).y)) = 2 ^ 2 := by
      norm_num
    rw [harg, Real.sqrt_sq (by norm_num : (0 : ℝ) ≤ 2)]
    simp [TVector3.mk.injEq]
  rw [hval]
  intro h
  have := congrArg TVector3.x h
  norm_num at this

/-- C2 (amended): the solver returns the zero vector exactly in the two
recovery situations present in the code — both transverse components zero,
or a negative discriminant (or vanishing `a`) in the general case; in
particular `p = (0, 0, 5)` yields the zero vector for both signs. -/
theorem perpAxis_zero_recovery (p : TVector3) (s : ℝ)
    (h : (p.x = 0 ∧ p.y = 0) ∨
      (p.x ≠ 0 ∧ p.y ≠ 0 ∧ (deltaGeneral p < 0 ∨ aGeneral p = 0))) :
    getPerpendicularAxis p s = ⟨0, 0, 0⟩ := by
  rcases h with ⟨hx, hy⟩ | ⟨hx, hy, hd⟩
  · exact getPerpendicularAxis_both_zero p s hx hy
  · exact getPerpendicularAxis_invalid p s hx hy hd

/-- Witness for C2: the degenerate input `(0, 0, 5)` returns the zero vector
for both signs, and the input `(1, 1, 10)`, whose discriminant is
`−39984 < 0`, also returns the zero vector. -/
theorem perpAxis_zero_recovery_witness :
    getPerpendicularAxis ⟨0, 0, 5⟩ 1 = ⟨0, 0, 0⟩ ∧
      getPerpendicularAxis ⟨0, 0, 5⟩ (-1) = ⟨0, 0, 0⟩ ∧
      getPerpendicularAxis ⟨1, 1, 10⟩ 1 = ⟨0, 0, 0⟩ :=
  ⟨perpAxis_zero_recovery ⟨0, 0, 5⟩ 1 (Or.inl ⟨rfl, rfl⟩),
   perpAxis_zero_recovery ⟨0, 0, 5⟩ (-1) (Or.inl ⟨rfl, rfl⟩),
   perpAxis_zero_recovery ⟨1, 1, 10⟩ 1
     (Or.inr ⟨by norm_num, by norm_num,
       Or.inl (by norm_num [deltaGeneral, aGeneral, bGeneral, cGeneral])⟩)⟩

/-- Square root of the discriminant at the counterexample input `(1, 2, 2)`. -/
theorem sqrt_deltaGeneral_122 : Real.sqrt (deltaGeneral ⟨1, 2, 2⟩) = 12 := by
  have hd : deltaGeneral (⟨1, 2, 2⟩ : TVector3) = 12 ^ 2 := by
    norm_num [deltaGeneral, aGeneral, bGeneral, cGeneral]
  rw [hd, Real.sqrt_sq (by norm_num : (0 : ℝ) ≤ 12)]

/-- Value of the solver at `(1, 2, 2)` with `sign = +1`. -/
theorem perpAxis_122_plus : getPerpendicularAxis ⟨1, 2, 2⟩ 1 = ⟨2 / 5, -11 / 5, 2⟩ := by
  rw [getPerpendicularAxis_general_eq ⟨1, 2, 2⟩ 1 (by norm_num) (by norm_num)
    (by norm_num [deltaGeneral, aGeneral, bGeneral, cGeneral]), sqrt_deltaGeneral_122]
  simp only [TVector3.mk.injEq]
  norm_num [aGeneral, bGeneral]

/-- Value of the solver at `(1, 2, 2)` with `sign = −1`. -/
theorem perpAxis_122_minus : getPerpendicularAxis ⟨1, 2, 2⟩ (-1) = ⟨-2, -1, 2⟩ := by
  rw [getPerpendicularAxis_general_eq ⟨1, 2, 2⟩ (-1) (by norm_num) (by norm_num)
    (by norm_num [deltaGeneral, aGeneral, bGeneral, cGeneral]), sqrt_deltaGeneral_122]
  simp only [TVector3.mk.injEq]
  norm_num [aGeneral, bGeneral]

/-- C3 counterexample: at the jet vector `p = (1, 2, 2)` the two axes have
transverse components `(2/5, −11/5)` and `(−2, −1)`, which are not related
by any negative scalar factor, so they are not anti-parallel. -/
theorem perpAxis_antiparallel_counterexample :
    ¬ ∃ l : ℝ, l < 0 ∧
      (getPerpendicularAxis ⟨1, 2, 2⟩ 1).x = l * (getPerpendicularAxis ⟨1, 2, 2⟩ (-1)).x ∧
      (getPerpendicularAxis ⟨1, 2, 2⟩ 1).y = l * (getPerpendicularAxis ⟨1, 2, 2⟩ (-1)).y := by
  rw [perpAxis_122_plus, perpAxis_122_minus]
  rintro ⟨l, -, h1, h2⟩
  simp only at h1 h2
  have hl : l = -(1 / 5) := by linarith
  rw [hl] at h2
  norm_num at h2

/-- C3 (amended): whenever the jet vector has vanishing z-component, the
two axes produced with `sign = +1` and `sign = −1` have transverse-plane
components that are exact negatives of each other (scalar factor `−1`),
hence anti-parallel whenever nonzero; for `pz ≠ 0` the two solutions are
generically not parallel. -/
theorem perpAxis_antiparallel_pz_zero (p : TVector3) (hz : p.z = 0) :
    (getPerpendicularAxis p 1).x = -((getPerpendicularAxis p (-1)).x) ∧
      (getPerpendicularAxis p 1).y = -((getPerpendicularAxis p (-1)).y) := by
  by_cases hx : p.x = 0
  · by_cases hy : p.y = 0
    · rw [getPerpendicularAxis_both_zero p 1 hx hy, getPerpendicularAxis_both_zero p (-1) hx hy]
      norm_num
    · rw [getPerpendicularAxis_px_zero p 1 hx hy, getPerpendicularAxis_px_zero p (-1) hx hy]
      simp only
      constructor
      · ring
      · rw [hz]
        ring
  · by_cases hy : p.y = 0
    · rw [getPerpendicularAxis_py_zero p 1 hy hx, getPerpendicularAxis_py_zero p (-1) hy hx]
      simp only
      constructor
      · rw [hz]
        ring
      · ring
    · have hd : 0 ≤ deltaGeneral p := by
        unfold deltaGeneral aGeneral bGeneral cGeneral
        rw [hz]
        nlinarith [sq_nonneg ((p.x * p.x + p.y * p.y) * p.y)]
      rw [getPerpendicularAxis_general_eq p 1 hx hy hd,
        getPerpendicularAxis_general_eq p (-1) hx hy hd]
      simp only
      unfold bGeneral
      rw [hz]
      constructor
      · ring
      · ring

/-- Witness for C3 at the concrete input `p = (1, 2, 0)`. -/
theorem perpAxis_antiparallel_pz_zero_witness :
    (getPerpendicularAxis ⟨1, 2, 0⟩ 1).x = -((getPerpendicularAxis ⟨1, 2, 0⟩ (-1)).x) ∧
      (getPerpendicularAxis ⟨1, 2, 0⟩ 1).y = -((getPerpendicularAxis ⟨1, 2, 0⟩ (-1)).y) :=
  perpAxis_antiparallel_pz_zero ⟨1, 2, 0⟩ rfl

/-- Embedding of ROOT's `TVector2::Phi_0_2pi`, which reduces an arbitrary
angle into the half-open interval `[0, 2π)`. -/
noncomputable def phi0_2pi (x : ℝ) : ℝ := x - 2 * Real.pi * ⌊x / (2 * Real.pi)⌋

/-- The reduced angle as a multiple of the fractional part. -/
theorem phi0_2pi_eq_fract (x : ℝ) :
    phi0_2pi x = 2 * Real.pi * Int.fract (x / (2 * Real.pi)) := by
  have h2 : (2 * Real.pi) ≠ 0 := by positivity
  unfold phi0_2pi Int.fract
  field_simp

/-- The reduced angle is nonnegative. -/
theorem phi0_2pi_nonneg (x : ℝ) : 0 ≤ phi0_2pi x := by
  rw [phi0_2pi_eq_fract]
  have h2 : (0 : ℝ) < 2 * Real.pi := by positivity
  exact mul_nonneg h2.le (Int.fract_nonneg _)

/-- The reduced angle is below `2π`. -/
theorem phi0_2pi_lt_two_pi (x : ℝ) : phi0_2pi x < 2 * Real.pi := by
  rw [phi0_2pi_eq_fract]
  have h2 : (0 : ℝ) < 2 * Real.pi := by positivity
  calc 2 * Real.pi * Int.fract (x / (2 * Real.pi)) < 2 * Real.pi * 1 :=
        (mul_lt_mul_left h2).mpr (Int.fract_lt_one _)
    _ = 2 * Real.pi := mul_one _

/-- Angles already in `[0, 2π)` are fixed by the reduction. -/
theorem phi0_2pi_eq_self (x : ℝ) (h0 : 0 ≤ x) (h2 : x < 2 * Real.pi) : phi0_2pi x = x := by
  have hpos : (0 : ℝ) < 2 * Real.pi := by positivity
  have hfl : ⌊x / (2 * Real.pi)⌋ = 0 := by
    rw [Int.floor_eq_zero_iff]
    exact ⟨div_nonneg h0 hpos.le, (div_lt_one hpos).mpr h2⟩
  unfold phi0_2pi
  rw [hfl]
  simp

/-- The boundary angle `2π` reduces to `0`. -/
theorem phi0_2pi_two_pi : phi0_2pi (2 * Real.pi) = 0 := by
  have h2 : (2 * Real.pi) ≠ 0 := by positivity
  unfold phi0_2pi
  rw [div_self h2]
  norm_num

/-- Embedding of `getDeltaPhi(a1, a2)` (source lines 344-357): both angles
are reduced into `[0, 2π)`, their absolute difference is taken, and the two
sequential `if` statements of the source (with `deltaPhi` initialised to 0)
select either the difference or its reflection about `2π`. -/
noncomputable def getDeltaPhi (a1 a2 : ℝ) : ℝ :=
  if |phi0_2pi a1 - phi0_2pi a2| ≤ Real.pi then
    |phi0_2pi a1 - phi0_2pi a2|
  else if Real.pi < |phi0_2pi a1 - phi0_2pi a2| then
    2 * Real.pi - |phi0_2pi a1 - phi0_2pi a2|
  else 0

/-- The absolute difference of two reduced angles is below `2π`. -/
theorem abs_phi_diff_lt (a b : ℝ) : |phi0_2pi a - phi0_2pi b| < 2 * Real.pi := by
  have h1 := phi0_2pi_nonneg a
  have h2 := phi0_2pi_lt_two_pi a
  have h3 := phi0_2pi_nonneg b
  have h4 := phi0_2pi_lt_two_pi b
  rw [abs_sub_lt_iff]
  constructor <;> linarith

/-- C4: `getDeltaPhi` is symmetric in its two arguments and its value lies
in the closed interval `[0, π]`. -/
theorem deltaPhi_symm_and_range (a b : ℝ) :
    getDeltaPhi a b = getDeltaPhi b a ∧ 0 ≤ getDeltaPhi a b ∧ getDeltaPhi a b ≤ Real.pi := by
  refine ⟨?_, ?_⟩
  · unfold getDeltaPhi
    rw [abs_sub_comm (phi0_2pi a) (phi0_2pi b)]
  · have hlt := abs_phi_diff_lt a b
    have habs : 0 ≤ |phi0_2pi a - phi0_2pi b| := abs_nonneg _
    unfold getDeltaPhi
    split_ifs with h1 h2
    · exact ⟨habs, h1⟩
    · constructor <;> linarith
    · constructor <;> [linarith; exact Real.pi_nonneg]

/-- Specification-side definition of AngularMetric, transcribed from the
spec's words in §4.1: normalize both angles into `[0, 2π)`, take the
absolute difference, and return `2π − difference` when the difference
exceeds `π`, else the difference. -/
noncomputable def specAngularMetric (a1 a2 : ℝ) : ℝ :=
  if Real.pi < |phi0_2pi a1 - phi0_2pi a2| then
    2 * Real.pi - |phi0_2pi a1 - phi0_2pi a2|
  else
    |phi0_2pi a1 - phi0_2pi a2|

/-- C5: `getDeltaPhi` computes exactly the cyclic reduction stated by the
spec; the wrap-around case `getDeltaPhi(0.1, 2π − 0.1)` gives exactly `0.2`,
and the boundary pair `(0, 2π)` gives `0` rather than a near-`2π` value. -/
theorem deltaPhi_matches_spec :
    (∀ a b : ℝ, getDeltaPhi a b = specAngularMetric a b) ∧
      getDeltaPhi 0.1 (2 * Real.pi - 0.1) = 0.2 ∧
      getDeltaPhi 0 (2 * Real.pi) = 0 := by
  have hpi := Real.pi_gt_three
  refine ⟨?_, ?_, ?_⟩
  · intro a b
    unfold getDeltaPhi specAngularMetric
    split_ifs with h1 h2 h3
    · linarith
    · rfl
    · rfl
    · linarith
  · have h1 : phi0_2pi (0.1 : ℝ) = 0.1 := phi0_2pi_eq_self _ (by norm_num) (by nlinarith)
    have h2 : phi0_2pi (2 * Real.pi - 0.1) = 2 * Real.pi - 0.1 :=
      phi0_2pi_eq_self _ (by nlinarith) (by nlinarith)
    have habs : |(0.1 : ℝ) - (2 * Real.pi - 0.1)| = 2 * Real.pi - 0.2 := by
      rw [abs_of_nonpos (by nlinarith)]
      ring
    unfold getDeltaPhi
    rw [h1, h2, habs, if_neg (by nlinarith), if_pos (by nlinarith)]
    ring
  · have h1 : phi0_2pi (0 : ℝ) = 0 := phi0_2pi_eq_self 0 le_rfl (by positivity)
    unfold getDeltaPhi
    rw [h1, phi0_2pi_two_pi, sub_self, abs_zero, if_pos Real.pi_nonneg]

/-- Embedding of the `TH2` response matrix as consumed by
`getCorrectedPt`: a fixed-bin x-axis (`nbinsX` bins spanning
`[xmin, xmax)`), together with, for each x-bin, the number of entries of
its y-projection and the value that `GetRandom` draws from it.  The random
draw is represented by the `projSample` oracle, so the embedded
`getCorrectedPt` is deterministic relative to the supplied histogram. -/
structure ResponseMatrix where
  nbinsX : ℕ
  xmin : ℝ
  xmax : ℝ
  projEntries : ℤ → ℕ
  projSample : ℤ → ℝ

/-- Embedding of `TAxis::FindBin` for a fixed-bin axis: underflow maps to
bin `0`, overflow to bin `nbinsX + 1`, and in-range values to
`1 + ⌊nbinsX·(x − xmin)/(xmax − xmin)⌋`. -/
noncomputable def findBin (h : ResponseMatrix) (x : ℝ) : ℤ :=
  if x < h.xmin then 0
  else if h.xmax ≤ x then h.nbinsX + 1
  else 1 + ⌊(h.nbinsX : ℝ) * (x - h.xmin) / (h.xmax - h.xmin)⌋

/-- Embedding of `getCorrectedPt(ptRec, responseMatrix)` (source lines
453-476).  A null response matrix is `none`; otherwise the x-bin of
`ptRec` is located, out-of-range bins and empty projections pass the input
through, and in the remaining case one sample is drawn from the bin's
projection and added to the input. -/
noncomputable def getCorrectedPt (ptRec : ℝ) (responseMatrix : Option ResponseMatrix) : ℝ :=
  match responseMatrix with
  | none => ptRec
  | some h =>
    if findBin h ptRec < 1 ∨ findBin h ptRec > (h.nbinsX : ℤ) then ptRec
    else if h.projEntries (findBin h ptRec) = 0 then ptRec
    else ptRec + h.projSample (findBin h ptRec)

/-- Reduction of `getCorrectedPt` on a present response matrix. -/
theorem getCorrectedPt_some_eq (ptRec : ℝ) (h : ResponseMatrix) :
    getCorrectedPt ptRec (some h) =
      if findBin h ptRec < 1 ∨ findBin h ptRec > (h.nbinsX : ℤ) then ptRec
      else if h.projEntries (findBin h ptRec) = 0 then ptRec
      else ptRec + h.projSample (findBin h ptRec) := rfl

/-- C6: with an absent (null) calibration density, `getCorrectedPt` returns
its input exactly unchanged, for every input value. -/
theorem correctedPt_null_passthrough (ptRec : ℝ) : getCorrectedPt ptRec none = ptRec := rfl

/-- C7: with a non-null calibration density, `getCorrectedPt` returns its
input unchanged whenever the input lies outside the calibrated
reconstructed-pt range, and also whenever the located bin's projected
offset distribution has no recorded entries. -/
theorem correctedPt_passthrough (ptRec : ℝ) (h : ResponseMatrix) :
    ((ptRec < h.xmin ∨ h.xmax ≤ ptRec) → getCorrectedPt ptRec (some h) = ptRec) ∧
      (h.projEntries (findBin h ptRec) = 0 → getCorrectedPt ptRec (some h) = ptRec) := by
  constructor
  · intro hout
    rw [getCorrectedPt_some_eq]
    rcases hout with hlo | hhi
    · rw [if_pos]
      left
      unfold findBin
      rw [if_pos hlo]
      norm_num
    · by_cases hlo : ptRec < h.xmin
      · rw [if_pos]
        left
        unfold findBin
        rw [if_pos hlo]
        norm_num
      · rw [if_pos]
        right
        unfold findBin
        rw [if_neg hlo, if_pos hhi]
        omega
  · intro hzero
    rw [getCorrectedPt_some_eq]
    by_cases hb : findBin h ptRec < 1 ∨ findBin h ptRec > (h.nbinsX : ℤ)
    · rw [if_pos hb]
    · rw [if_neg hb, if_pos hzero]

/-- A concrete response matrix with ten bins on `[0, 10)` and empty
projections everywhere, used to witness C7. -/
def emptyRM : ResponseMatrix where
  nbinsX := 10
  xmin := 0
  xmax := 10
  projEntries := fun _ => 0
  projSample := fun _ => 0

/-- Witness for C7: the out-of-range input `−1` and the in-range input `5`
both pass through the concrete matrix `emptyRM` unchanged. -/
theorem correctedPt_passthrough_witness :
    getCorrectedPt (-1) (some emptyRM) = -1 ∧ getCorrectedPt 5 (some emptyRM) = 5 :=
  ⟨(correctedPt_passthrough (-1) emptyRM).1 (Or.inl (by norm_num [emptyRM])),
   (correctedPt_passthrough 5 emptyRM).2 rfl⟩

/-- Distance in pseudorapidity-azimuth space between a track direction and
a reference-axis direction, as computed at source lines 688-693:
`deltaR = sqrt(deltaEta² + deltaPhi²)` with `deltaPhi` from `getDeltaPhi`. -/
noncomputable def deltaR (trkEta trkPhi axEta axPhi : ℝ) : ℝ :=
  Real.sqrt ((trkEta - axEta) * (trkEta - axEta)
    + getDeltaPhi trkPhi axPhi * getDeltaPhi trkPhi axPhi)

/-- Membership of a candidate direction in the cone of the given radius
around a reference axis: the complement of the per-cone skip test
`deltaR > coneRadius` of source line 694. -/
def inUeCone (trkEta trkPhi axEta axPhi coneRadius : ℝ) : Prop :=
  deltaR trkEta trkPhi axEta axPhi ≤ coneRadius

/-- The keep-condition of the underlying-event loop (source line 694): a
track survives iff it is NOT outside both perpendicular cones. -/
def ueConeKeep (trkEta trkPhi e1 p1 e2 p2 coneRadius : ℝ) : Prop :=
  ¬(deltaR trkEta trkPhi e1 p1 > coneRadius ∧ deltaR trkEta trkPhi e2 p2 > coneRadius)

/-- The angular metric vanishes on equal angles. -/
theorem getDeltaPhi_self (a : ℝ) : getDeltaPhi a a = 0 := by
  unfold getDeltaPhi
  rw [sub_self, abs_zero, if_pos Real.pi_nonneg]

/-- The cone distance of a direction from itself is zero. -/
theorem deltaR_self (e p : ℝ) : deltaR e p e p = 0 := by
  unfold deltaR
  rw [getDeltaPhi_self, sub_self]
  norm_num

/-- C8: cone membership is decided by the rule `deltaR ≤ radius` — the
loop's keep-condition holds iff the track is inside cone 1 or inside
cone 2; a direction coinciding with the axis is inside for every radius
`≥ 0`; and a direction at distance exactly the radius is inside. -/
theorem coneMembership_rule (te tp e1 p1 e2 p2 R : ℝ) :
    (ueConeKeep te tp e1 p1 e2 p2 R ↔
        (inUeCone te tp e1 p1 R ∨ inUeCone te tp e2 p2 R)) ∧
      (0 ≤ R → inUeCone te tp te tp R) ∧
      (deltaR te tp e1 p1 = R → inUeCone te tp e1 p1 R) := by
  refine ⟨?_, ?_, ?_⟩
  · unfold ueConeKeep inUeCone
    rw [not_and_or, not_lt, not_lt]
  · intro hR
    unfold inUeCone
    rw [deltaR_self]
    exact hR
  · intro hEq
    unfold inUeCone
    rw [hEq]

/-- Witness for C8: the direction `(eta, phi) = (1, 0)` coincides with the
axis `(1, 0)` and so lies inside its cone of radius 1, and it lies at
distance exactly 1 from the axis `(0, 0)` and so is inside that cone too. -/
theorem coneMembership_rule_witness :
    inUeCone 1 0 1 0 1 ∧ inUeCone 1 0 0 0 1 :=
  ⟨(coneMembership_rule 1 0 0 0 0 0 1).2.1 (by norm_num),
   (coneMembership_rule 1 0 0 0 0 0 1).2.2 (by
      unfold deltaR
      rw [getDeltaPhi_self]
      norm_num)⟩

/-- Modelled from the spec: the body of the background subtraction invoked
at source line 587 (`backgroundSub.doRhoAreaSub`) is implemented in the
repository's jet utilities outside this source tree; per §4.4 it computes
the area-based subtraction `pt_sub = pt_raw − area·density`. -/
def doRhoAreaSub (ptRaw area rho : ℝ) : ℝ := ptRaw - area * rho

/-- C9: the background corrector computes `pt_sub = pt_raw − area·density`
for every raw pt, area and density; in particular raw pt 20 with area 0.5
and density 10 gives 15. -/
theorem rhoAreaSub_formula :
    (∀ ptRaw area rho : ℝ, doRhoAreaSub ptRaw area rho = ptRaw - area * rho) ∧
      doRhoAreaSub 20 0.5 10 = 15 :=
  ⟨fun _ _ _ => rfl, by norm_num [doRhoAreaSub]⟩

/-- Track data consumed by the underlying-event loop: its direction and the
outcome of `passedTrackSelection` (whose detector-level inputs are opaque
here). -/
structure UeTrack where
  eta : ℝ
  phi : ℝ
  passedSel : Bool

noncomputable instance : DecidableEq UeTrack := fun _ _ => Classical.propDecidable _

/-- The per-track guard of the underlying-event loop (source lines 682-695):
a track's fills are reached iff it passes selection (line 685) and is not
outside both perpendicular cones (line 694). -/
noncomputable def uePass (e1 p1 e2 p2 R : ℝ) (t : UeTrack) : Bool :=
  t.passedSel &&
    !(decide (deltaR t.eta t.phi e1 p1 > R ∧ deltaR t.eta t.phi e2 p2 > R))

/-- The underlying-event loop of one jet iteration, reduced to the list of
tracks whose fill block executes: a single pass over `tracks` keeping those
that satisfy the guard. -/
noncomputable def ueLoopKept (tracks : List UeTrack) (e1 p1 e2 p2 R : ℝ) : List UeTrack :=
  tracks.filter (uePass e1 p1 e2 p2 R)

/-- C10: the underlying-event loop treats the two perpendicular cones as a
union — each track occurrence triggers the fill block at most once per
(track, jet) pair; a track inside both cones simultaneously is kept exactly
once per occurrence (not twice); and swapping the two cone axes leaves the
kept list unchanged, so no per-cone distinction is recorded. -/
theorem ueLoop_union_counting (tracks : List UeTrack) (t : UeTrack) (e1 p1 e2 p2 R : ℝ) :
    (ueLoopKept tracks e1 p1 e2 p2 R).count t ≤ tracks.count t ∧
      (t.passedSel = true → deltaR t.eta t.phi e1 p1 ≤ R → deltaR t.eta t.phi e2 p2 ≤ R →
        (ueLoopKept tracks e1 p1 e2 p2 R).count t = tracks.count t) ∧
      ueLoopKept tracks e1 p1 e2 p2 R = ueLoopKept tracks e2 p2 e1 p1 R := by
  refine ⟨?_, ?_, ?_⟩
  · exact (List.filter_sublist tracks).count_le t
  · intro hsel h1 h2
    have hp : uePass e1 p1 e2 p2 R t = true := by
      unfold uePass
      rw [hsel, Bool.true_and, Bool.not_eq_true', decide_eq_false_iff_not]
      exact fun hc => absurd hc.1 (not_lt.mpr h1)
    unfold ueLoopKept
    rw [List.count_filter]
    simp [hp]
  · unfold ueLoopKept
    apply List.filter_congr
    intro a _
    unfold uePass
    exact congrArg (fun b => a.passedSel && !b) (decide_eq_decide.mpr And.comm)

/-- A selected track sitting exactly on both cone axes, used to witness C10. -/
def tShared : UeTrack := ⟨0, 0, true⟩

/-- Witness for C10: a track lying inside both cones (here, on both axes)
is kept exactly once by the loop over the one-element track list. -/
theorem ueLoop_union_counting_witness :
    (ueLoopKept [tShared] 0 0 0 0 1).count tShared = ([tShared] : List UeTrack).count tShared :=
  (ueLoop_union_counting [tShared] tShared 0 0 0 0 1).2.1 rfl
    (by rw [show tShared.eta = 0 from rfl, show tShared.phi = 0 from rfl, deltaR_self]; norm_num)
    (by rw [show tShared.eta = 0 from rfl, show tShared.phi = 0 from rfl, deltaR_self]; norm_num)
